import Mathlib

/-!
Verification of the SPMC LMAX-Disruptor implementation (LMAXDisruptor.cpp).

The source program is embedded shallowly:
- machine integers (uint64, uint32, uint8) are natural numbers, with explicit
  reduction modulo 2 to the corresponding power wherever the C arithmetic wraps;
- the ring buffer is a function from block indices to blocks;
- the concurrent system (one producer thread, four consumer threads) is an
  interleaving transition system: one loop iteration of a thread is one step,
  and reachable states are those obtained from the all-zero initial state.
-/

namespace LMAXDisruptor

/-- Number of sequence values representable in a uint64 counter. -/
abbrev U64 : Nat := 2 ^ 64

/-- Source constant p = 8: the ring size is 1 shifted left by p. -/
abbrev p : Nat := 8

/-- Source constant size_ = 1 << p = 256: the ring capacity. -/
abbrev size_ : Nat := 1 <<< p

/-- Source constant ull_max: the largest uint64 value. -/
abbrev ull_max : Nat := U64 - 1

/-- Source constant numConsumers = 4. -/
abbrev numConsumers : Nat := 4

/-- uint64 subtraction a - b for values a, b below 2 to the 64. -/
def sub64 (a b : Nat) : Nat := (a + U64 - b) % U64

/-- A ring-buffer block: 63 payload bytes plus one size byte, one cache line. -/
structure Block where
  data : Fin 63 → Nat
  size_ : Nat

/-- The ring buffer: an array of blocks, embedded as a function on naturals.
Only indices below size_ are ever produced by the masking in Write and Read. -/
structure RingBuffer where
  buffer : Nat → Block

/-- The slot index computation of Write and Read: block_idx & l with l = size_ - 1. -/
def RingBuffer.index (block_idx : Nat) : Nat := block_idx &&& (size_ - 1)

/-- Write(block_idx, data, size): store the size byte, then copy size bytes of
the source into the slot at index block_idx & l, leaving the remaining payload
bytes of the slot unchanged. No bounds or staleness checking is performed. -/
def RingBuffer.Write (rb : RingBuffer) (block_idx : Nat) (src : List Nat) (size : Nat) :
    RingBuffer :=
  { buffer := Function.update rb.buffer (RingBuffer.index block_idx)
      { size_ := size,
        data := fun j => if (j : Nat) < size then src.getD (j : Nat) 0
                         else (rb.buffer (RingBuffer.index block_idx)).data j } }

/-- Read(block_idx, data, size): return the stored size byte of the slot at
index block_idx & l together with that many bytes copied out of the slot. -/
def RingBuffer.Read (rb : RingBuffer) (block_idx : Nat) : Nat × List Nat :=
  ((rb.buffer (RingBuffer.index block_idx)).size_,
   (List.range (rb.buffer (RingBuffer.index block_idx)).size_).map fun j =>
      if h : j < 63 then (rb.buffer (RingBuffer.index block_idx)).data ⟨j, h⟩ else 0)

/-- A sequence of Write calls applied left to right. -/
def writeList (rb : RingBuffer) (ws : List (Nat × List Nat × Nat)) : RingBuffer :=
  ws.foldl (fun b w => b.Write w.1 w.2.1 w.2.2) rb

/-- Fuel-based decimal rendering of the digits of n as ASCII bytes, most
significant first; models the digit loop of std::to_string. 64 units of fuel
cover every number below 10 to the 64. -/
def to_string_aux (fuel : Nat) (n : Nat) : List Nat :=
  match fuel with
  | 0 => []
  | fuel + 1 => if n = 0 then [] else to_string_aux fuel (n / 10) ++ [n % 10 + 48]

/-- The ASCII bytes of std::to_string(n) for a uint64 value n. -/
def to_string (n : Nat) : List Nat :=
  if n = 0 then [48] else to_string_aux 64 n

/-- The bytes of the string built by the producer before each write:
the nine characters of the prefix followed by the decimal digits of n. -/
def message (n : Nat) : List Nat :=
  ([77, 101, 115, 115, 97, 103, 101, 58, 32] : List Nat) ++ to_string n

/-- Global state of the system: the producer counter, the four consumer
counters, the shared ring buffer, and a log of the Read results of each
consumer (most recent first), recording what each consumer has observed. -/
structure State where
  sequence : Nat
  consumer_sequences : Fin numConsumers → Nat
  buffer : RingBuffer
  reads : Fin numConsumers → List (Nat × List Nat)

/-- The wiring chosen in main: consumer i has next_consumer_id i + 1 when
i + 1 < numConsumers and no next consumer (source value -1) otherwise. -/
def next_consumer_id (i : Fin numConsumers) : Option (Fin numConsumers) :=
  if h : (i : Nat) + 1 < numConsumers then some ⟨(i : Nat) + 1, h⟩ else none

/-- The producer gating loop: cont stays true exactly when every difference
sequence - consumer_sequences[i], taken in uint64 arithmetic, is below size_. -/
def producer_cont (s : State) : Bool :=
  decide (∀ i : Fin numConsumers, sub64 s.sequence (s.consumer_sequences i) < size_)

/-- Source value c = ull_max / size_ - 2 used by the overflow rebase. -/
def c_epoch : Nat := ull_max / size_ - 2

/-- The overflow rebase: subtract c * size_ (in uint64 arithmetic) from every
consumer counter and from the producer counter. -/
def rebase (s : State) : State :=
  { s with
    consumer_sequences := fun i => sub64 (s.consumer_sequences i) (c_epoch * size_),
    sequence := sub64 s.sequence (c_epoch * size_) }

/-- One iteration of the producer loop. If the gating check fails the
iteration changes nothing. Otherwise: rebase when the counter sits at
ull_max; build the message for the current counter; Write its bytes and the
terminating zero byte (the size argument is truncated to uint8 at the call);
finally advance the producer counter by one in uint64 arithmetic. -/
def producer_step (s : State) : State :=
  if producer_cont s then
    let s1 := if s.sequence = ull_max then rebase s else s
    let msg := message s1.sequence
    { s1 with
      buffer := s1.buffer.Write (s1.sequence % 2 ^ 32) (msg ++ [0])
        ((msg.length + 1) % 256),
      sequence := (s1.sequence + 1) % U64 }
  else s

/-- The consumer gating check of consumer i: its counter must trail the
producer counter, and, when a next consumer is wired, also trail that
consumer's counter. -/
def consumer_admitted (s : State) (i : Fin numConsumers) : Bool :=
  decide (s.consumer_sequences i < s.sequence) &&
    match next_consumer_id i with
    | none => true
    | some j => decide (s.consumer_sequences i < s.consumer_sequences j)

/-- One iteration of the loop body of consumer i. If the gating check fails
the iteration changes nothing; otherwise the consumer Reads the slot of its
current counter (the index is truncated to uint32 at the call), logs the
result, and advances its counter by one in uint64 arithmetic. -/
def consumer_step (s : State) (i : Fin numConsumers) : State :=
  if consumer_admitted s i then
    { s with
      reads := Function.update s.reads i
        (s.buffer.Read (s.consumer_sequences i % 2 ^ 32) :: s.reads i),
      consumer_sequences := Function.update s.consumer_sequences i
        ((s.consumer_sequences i + 1) % U64) }
  else s

/-- The state at program start: all counters zero, no reads logged, and the
freshly allocated ring buffer b0 (its blocks are not initialized by the
source, so the initial contents are arbitrary). -/
def init (b0 : RingBuffer) : State :=
  { sequence := 0
    consumer_sequences := fun _ => 0
    buffer := b0
    reads := fun _ => [] }

/-- One interleaving step: either one producer iteration or one iteration of
one of the consumers. -/
inductive Step : State → State → Prop where
  | producer (s : State) : Step s (producer_step s)
  | consumer (s : State) (i : Fin numConsumers) : Step s (consumer_step s i)

/-- States reachable from the initial state with ring buffer b0. -/
inductive Reachable (b0 : RingBuffer) : State → Prop where
  | refl : Reachable b0 (init b0)
  | tail {s t : State} : Reachable b0 s → Step s t → Reachable b0 t

/-- The minimum of the four consumer counters. -/
def min_consumer (s : State) : Nat :=
  min (min (s.consumer_sequences 0) (s.consumer_sequences 1))
      (min (s.consumer_sequences 2) (s.consumer_sequences 3))

/-- The loop condition of consumer i: the running flag is still set, or
unread published data remains. -/
def consumer_loop_cond (running : Bool) (s : State) (i : Fin numConsumers) : Bool :=
  running || decide (s.consumer_sequences i < s.sequence)

/-- The inductive invariant of the transition system: the producer counter is
a uint64 value, every consumer trails the producer by at most size_, and each
consumer trails its next consumer. -/
def Inv (s : State) : Prop :=
  s.sequence < U64 ∧
  (∀ i, s.consumer_sequences i ≤ s.sequence) ∧
  (∀ i, s.sequence - s.consumer_sequences i ≤ size_) ∧
  (∀ i j, next_consumer_id i = some j →
    s.consumer_sequences i ≤ s.consumer_sequences j)

/-- An all-zero block, used to build concrete witness states. -/
def zeroBlock : Block := { data := fun _ => 0, size_ := 0 }

/-- A ring buffer whose blocks are all zero, used in concrete witnesses. -/
def zeroBuffer : RingBuffer := { buffer := fun _ => zeroBlock }

/-- A concrete state at the overflow boundary: producer and all consumers at
ull_max, used to witness the rebase theorem. -/
def boundaryState : State :=
  { sequence := ull_max
    consumer_sequences := fun _ => ull_max
    buffer := zeroBuffer
    reads := fun _ => [] }
theorem sub64_exact {a b : Nat} (ha : a < U64) (hb : b ≤ a) : sub64 a b = a - b := by
  simp only [sub64, U64] at *
  omega
theorem sub64_lt {a b : Nat} : sub64 a b < U64 := by
  simp only [sub64, U64]
  omega
theorem c_epoch_mul : c_epoch * size_ = U64 - 768 := by decide

theorem producer_step_not_admitted {s : State} (h : producer_cont s = false) :
    producer_step s = s := by
  simp [producer_step, h]

theorem producer_cont_spec {s : State} (h : producer_cont s = true) :
    ∀ i, sub64 s.sequence (s.consumer_sequences i) < size_ :=
  of_decide_eq_true h

theorem producer_step_no_rebase {s : State} (h : producer_cont s = true)
    (hm : s.sequence ≠ ull_max) :
    (producer_step s).sequence = (s.sequence + 1) % U64 ∧
    (producer_step s).consumer_sequences = s.consumer_sequences := by
  simp [producer_step, h, hm]

theorem producer_step_rebase {s : State} (h : producer_cont s = true)
    (hm : s.sequence = ull_max) :
    (producer_step s).sequence = (sub64 s.sequence (c_epoch * size_) + 1) % U64 ∧
    (producer_step s).consumer_sequences =
      fun i => sub64 (s.consumer_sequences i) (c_epoch * size_) := by
  simp [producer_step, rebase, h, hm]

theorem consumer_step_not_admitted {s : State} {i : Fin numConsumers}
    (h : consumer_admitted s i = false) : consumer_step s i = s := by
  simp [consumer_step, h]

theorem consumer_step_admitted {s : State} {i : Fin numConsumers}
    (h : consumer_admitted s i = true) :
    (consumer_step s i).sequence = s.sequence ∧
    (consumer_step s i).consumer_sequences =
      Function.update s.consumer_sequences i ((s.consumer_sequences i + 1) % U64) := by
  simp [consumer_step, h]

theorem consumer_admitted_iff (s : State) (i : Fin numConsumers) :
    consumer_admitted s i = true ↔
      s.consumer_sequences i < s.sequence ∧
      ∀ j, next_consumer_id i = some j →
        s.consumer_sequences i < s.consumer_sequences j := by
  unfold consumer_admitted
  cases hn : next_consumer_id i <;> simp [hn]

theorem next_consumer_id_ne {i j : Fin numConsumers}
    (h : next_consumer_id i = some j) : j ≠ i := by
  unfold next_consumer_id at h
  split at h
  · injection h with h
    intro he
    have h1 := congrArg Fin.val h
    have h2 := congrArg Fin.val he
    simp at h1 h2
    omega
  · exact absurd h (by simp)

theorem inv_init (b0 : RingBuffer) : Inv (init b0) := by
  refine ⟨by simp only [init, U64]; omega, fun i => le_refl _,
    fun i => by simp [init], fun i j h => le_refl _⟩

theorem inv_producer {s : State} (h : Inv s) : Inv (producer_step s) := by
  obtain ⟨hseq, hle, hgap, hchain⟩ := h
  cases hc : producer_cont s with
  | false => rw [producer_step_not_admitted hc]; exact ⟨hseq, hle, hgap, hchain⟩
  | true =>
    have hadm : ∀ i, s.sequence - s.consumer_sequences i < size_ := fun i => by
      have h := producer_cont_spec hc i
      rwa [sub64_exact hseq (hle i)] at h
    by_cases hm : s.sequence = ull_max
    · obtain ⟨h1, h2⟩ := producer_step_rebase hc hm
      have hsz : size_ = 256 := by decide
      have hKle : ∀ i, c_epoch * size_ ≤ s.consumer_sequences i := fun i => by
        have ha := hadm i
        have hl := hle i
        rw [c_epoch_mul]
        simp only [hsz] at ha
        simp only [ull_max, U64] at hm ⊢
        omega
      have hcons : ∀ i, (producer_step s).consumer_sequences i
          = s.consumer_sequences i - (U64 - 768) := fun i => by
        have hh : (producer_step s).consumer_sequences i
            = sub64 (s.consumer_sequences i) (c_epoch * size_) := congrFun h2 i
        rw [hh, sub64_exact (Nat.lt_of_le_of_lt (hle i) hseq) (hKle i), c_epoch_mul]
      have hseq' : (producer_step s).sequence = 768 := by
        rw [h1, sub64_exact hseq (by rw [c_epoch_mul]; simp only [ull_max, U64] at hm ⊢; omega),
          c_epoch_mul]
        simp only [ull_max, U64] at hm ⊢
        omega
      refine ⟨?_, fun i => ?_, fun i => ?_, fun i j hij => ?_⟩
      · rw [hseq']; simp only [U64]; omega
      · rw [hseq', hcons i]
        have hl := hle i
        simp only [ull_max, U64] at hm ⊢
        omega
      · rw [hseq', hcons i]
        have ha := hadm i
        have hl := hle i
        simp only [hsz] at ha ⊢
        simp only [ull_max, U64] at hm ⊢
        omega
      · rw [hcons i, hcons j]
        have hcij := hchain i j hij
        omega
    · obtain ⟨h1, h2⟩ := producer_step_no_rebase hc hm
      have hlt : s.sequence + 1 < U64 := by
        simp only [ull_max, U64] at hm hseq ⊢
        omega
      have hseq' : (producer_step s).sequence = s.sequence + 1 := by
        rw [h1, Nat.mod_eq_of_lt hlt]
      refine ⟨by rw [hseq']; exact hlt, fun i => ?_, fun i => ?_, fun i j hij => ?_⟩
      · rw [hseq', h2]
        exact le_trans (hle i) (Nat.le_succ _)
      · rw [hseq', h2]
        have := hadm i
        omega
      · rw [h2]
        exact hchain i j hij

theorem inv_consumer {s : State} (i : Fin numConsumers) (h : Inv s) :
    Inv (consumer_step s i) := by
  obtain ⟨hseq, hle, hgap, hchain⟩ := h
  cases hc : consumer_admitted s i with
  | false => rw [consumer_step_not_admitted hc]; exact ⟨hseq, hle, hgap, hchain⟩
  | true =>
    obtain ⟨hlt, hup⟩ := (consumer_admitted_iff s i).mp hc
    obtain ⟨h1, h2⟩ := consumer_step_admitted hc
    have hmod : (s.consumer_sequences i + 1) % U64 = s.consumer_sequences i + 1 :=
      Nat.mod_eq_of_lt (by omega)
    refine ⟨by rw [h1]; exact hseq, fun i' => ?_, fun i' => ?_, fun i' j' hn => ?_⟩
    · rw [h1, h2]
      by_cases hi : i' = i
      · subst hi
        rw [Function.update_same, hmod]
        omega
      · rw [Function.update_noteq hi]
        exact hle i'
    · rw [h1, h2]
      by_cases hi : i' = i
      · subst hi
        rw [Function.update_same, hmod]
        have := hgap i'
        omega
      · rw [Function.update_noteq hi]
        exact hgap i'
    · rw [h2]
      have hji' := next_consumer_id_ne hn
      by_cases hi : i' = i
      · subst hi
        have hj : j' ≠ i' := hji'
        rw [Function.update_same, Function.update_noteq hj, hmod]
        have := hup j' hn
        omega
      · rw [Function.update_noteq hi]
        by_cases hj : j' = i
        · subst hj
          rw [Function.update_same, hmod]
          have := hchain i' j' hn
          omega
        · rw [Function.update_noteq hj]
          exact hchain i' j' hn

theorem reachable_inv {b0 : RingBuffer} {s : State} (h : Reachable b0 s) : Inv s := by
  induction h with
  | refl => exact inv_init b0
  | tail hr hstep ih =>
    cases hstep with
    | producer => exact inv_producer ih
    | consumer i => exact inv_consumer i ih

/-- Claim C1: in every reachable state the producer counter exceeds the minimum of
the four consumer counters by at most the capacity size_ = 256. -/
theorem producer_gap_le_capacity (b0 : RingBuffer) (s : State)
    (h : Reachable b0 s) : s.sequence - min_consumer s ≤ size_ := by
  obtain ⟨-, -, hgap, -⟩ := reachable_inv h
  have h0 := hgap 0
  have h1 := hgap 1
  have h2 := hgap 2
  have h3 := hgap 3
  simp only [min_consumer]
  omega

theorem producer_gap_le_capacity_witness :
    (init zeroBuffer).sequence - min_consumer (init zeroBuffer) ≤ size_ :=
  producer_gap_le_capacity zeroBuffer (init zeroBuffer) Reachable.refl

/-- Claim C4: in every reachable state each consumer that has an upstream consumer
(the consumer with the next id, for ids 0, 1, 2) trails that consumer. -/
theorem consumer_chain_invariant (b0 : RingBuffer) (s : State)
    (h : Reachable b0 s) :
    ∀ i j, next_consumer_id i = some j →
      s.consumer_sequences i ≤ s.consumer_sequences j := by
  obtain ⟨-, -, -, hchain⟩ := reachable_inv h
  exact hchain

theorem consumer_chain_invariant_witness :
    (init zeroBuffer).consumer_sequences 0 ≤ (init zeroBuffer).consumer_sequences 1 :=
  consumer_chain_invariant zeroBuffer (init zeroBuffer) Reachable.refl 0 1 (by decide)

/-- Claim C2: the producer gating check succeeds exactly when all four uint64
differences between the producer counter and the consumer counters are below
size_ = 256; when it fails, the producer iteration changes nothing: no write
and no counter change. -/
theorem producer_admission_exact (s : State) :
    (producer_cont s = true ↔
      ∀ i, sub64 s.sequence (s.consumer_sequences i) < size_) ∧
    (producer_cont s = true ∨ producer_step s = s) := by
  constructor
  · exact decide_eq_true_iff
  · cases hc : producer_cont s
    · exact Or.inr (producer_step_not_admitted hc)
    · exact Or.inl rfl

/-- Claim C3: the gating check of consumer i succeeds exactly when its counter
trails the producer counter and, if an upstream (next) consumer is wired, also
trails that consumer's counter; when it fails, the consumer iteration changes
nothing: no read and no counter change. -/
theorem consumer_admission_exact (s : State) (i : Fin numConsumers) :
    (consumer_admitted s i = true ↔
      s.consumer_sequences i < s.sequence ∧
      ∀ j, next_consumer_id i = some j →
        s.consumer_sequences i < s.consumer_sequences j) ∧
    (consumer_admitted s i = true ∨ consumer_step s i = s) := by
  constructor
  · exact consumer_admitted_iff s i
  · cases hc : consumer_admitted s i
    · exact Or.inr (consumer_step_not_admitted hc)
    · exact Or.inl rfl

/-- Claim C7: the loop of consumer i continues while the running flag is set or
unread published data remains; hence it exits exactly when the flag is
cleared and every sequence number below the producer counter is below the
consumer counter, that is, has already been read by this consumer. -/
theorem consumer_exit_condition (running : Bool) (s : State) (i : Fin numConsumers) :
    consumer_loop_cond running s i = false ↔
      running = false ∧ ∀ t, t < s.sequence → t < s.consumer_sequences i := by
  simp only [consumer_loop_cond, Bool.or_eq_false_iff, decide_eq_false_iff_not, Nat.not_lt]
  constructor
  · rintro ⟨hr, hle⟩
    exact ⟨hr, fun t ht => Nat.lt_of_lt_of_le ht hle⟩
  · rintro ⟨hr, hall⟩
    refine ⟨hr, ?_⟩
    by_contra hcon
    push_neg at hcon
    exact absurd (hall _ hcon) (lt_irrefl _)

theorem min_consumer_le (s : State) (i : Fin numConsumers) :
    min_consumer s ≤ s.consumer_sequences i := by
  have h0 : min_consumer s ≤ s.consumer_sequences 0 := by
    simp only [min_consumer]; omega
  have h1 : min_consumer s ≤ s.consumer_sequences 1 := by
    simp only [min_consumer]; omega
  have h2 : min_consumer s ≤ s.consumer_sequences 2 := by
    simp only [min_consumer]; omega
  have h3 : min_consumer s ≤ s.consumer_sequences 3 := by
    simp only [min_consumer]; omega
  fin_cases i
  · exact h0
  · exact h1
  · exact h2
  · exact h3

/-- Claim C5: at the overflow boundary (producer counter at ull_max), in any state
satisfying the safety invariant, the rebase subtracts exactly
c_epoch * size_ from the producer counter and from every consumer counter
(the uint64 subtraction does not wrap), preserving every counter modulo
size_ and preserving every pairwise difference between counters exactly;
moreover the producer iteration leaves the consumer counters untouched
whenever the producer counter is not at ull_max, so the rebase fires exactly
at the boundary. -/
theorem rebase_exact (s : State)
    (hmax : s.sequence = ull_max)
    (hle : ∀ i, s.consumer_sequences i ≤ s.sequence)
    (hmin : s.sequence - min_consumer s ≤ size_) :
    (rebase s).sequence = s.sequence - c_epoch * size_ ∧
    (∀ i, (rebase s).consumer_sequences i = s.consumer_sequences i - c_epoch * size_) ∧
    (rebase s).sequence % size_ = s.sequence % size_ ∧
    (∀ i, (rebase s).consumer_sequences i % size_ = s.consumer_sequences i % size_) ∧
    (∀ i, ((rebase s).sequence : Int) - ((rebase s).consumer_sequences i : Int) =
      (s.sequence : Int) - (s.consumer_sequences i : Int)) ∧
    (∀ i j, ((rebase s).consumer_sequences i : Int) - ((rebase s).consumer_sequences j : Int) =
      (s.consumer_sequences i : Int) - (s.consumer_sequences j : Int)) ∧
    (∀ t : State, t.sequence = ull_max ∨
      (producer_step t).consumer_sequences = t.consumer_sequences) := by
  have hsz : size_ = 256 := by decide
  have hseq : s.sequence < U64 := by
    simp only [hmax, ull_max, U64]
    omega
  have hgap : ∀ i, s.sequence - s.consumer_sequences i ≤ size_ := fun i => by
    have h1 := min_consumer_le s i
    omega
  have hKle : ∀ i, c_epoch * size_ ≤ s.consumer_sequences i := fun i => by
    have h1 := hgap i
    rw [c_epoch_mul]
    simp only [hsz] at h1
    simp only [hmax, ull_max, U64] at *
    omega
  have hKseq : c_epoch * size_ ≤ s.sequence := by
    rw [c_epoch_mul]
    simp only [hmax, ull_max, U64]
    omega
  have ha : (rebase s).sequence = s.sequence - c_epoch * size_ := by
    show sub64 s.sequence (c_epoch * size_) = _
    exact sub64_exact hseq hKseq
  have hb : ∀ i, (rebase s).consumer_sequences i
      = s.consumer_sequences i - c_epoch * size_ := fun i => by
    show sub64 (s.consumer_sequences i) (c_epoch * size_) = _
    exact sub64_exact (Nat.lt_of_le_of_lt (hle i) hseq) (hKle i)
  refine ⟨ha, hb, ?_, fun i => ?_, fun i => ?_, fun i j => ?_, fun t => ?_⟩
  · rw [ha, c_epoch_mul]
    simp only [hmax, ull_max, U64, hsz]
    omega
  · rw [hb i, c_epoch_mul]
    have h1 := hKle i
    have h2 := Nat.lt_of_le_of_lt (hle i) hseq
    rw [c_epoch_mul] at h1
    simp only [hsz, U64] at *
    omega
  · rw [ha, hb i]
    have h1 := hKle i
    have h2 := hKseq
    omega
  · rw [hb i, hb j]
    have h1 := hKle i
    have h2 := hKle j
    omega
  · by_cases hm : t.sequence = ull_max
    · exact Or.inl hm
    · right
      cases hc : producer_cont t with
      | false => rw [producer_step_not_admitted hc]
      | true => exact (producer_step_no_rebase hc hm).2

theorem rebase_exact_witness :
    boundaryState.sequence = ull_max ∧
    (rebase boundaryState).sequence % size_ = boundaryState.sequence % size_ :=
  ⟨rfl, (rebase_exact boundaryState rfl (by decide) (by decide)).2.2.1⟩

theorem to_string_aux_length {fuel n k : Nat} (hn : n < 10 ^ k) (hk : k ≤ fuel) :
    (to_string_aux fuel n).length ≤ k := by
  induction fuel generalizing n k with
  | zero => simp [to_string_aux]
  | succ fuel ih =>
    rw [to_string_aux]
    by_cases h0 : n = 0
    · simp [h0]
    · rw [if_neg h0]
      have hk1 : 1 ≤ k := by
        rcases Nat.eq_zero_or_pos k with hk0 | hk0
        · subst hk0
          simp only [pow_zero, Nat.lt_one_iff] at hn
          exact absurd hn h0
        · exact hk0
      have h10 : (10 : Nat) ^ k = 10 ^ (k - 1) * 10 := by
        conv_lhs => rw [show k = (k - 1) + 1 by omega]
        rw [pow_succ]
      have hdiv : n / 10 < 10 ^ (k - 1) := by
        rw [Nat.div_lt_iff_lt_mul (by norm_num)]
        calc n < 10 ^ k := hn
          _ = 10 ^ (k - 1) * 10 := h10
      have hrec := ih hdiv (by omega)
      simp only [List.length_append, List.length_cons, List.length_nil]
      omega

theorem to_string_length {n : Nat} (hn : n < U64) : (to_string n).length ≤ 20 := by
  unfold to_string
  by_cases h0 : n = 0
  · simp [h0]
  · rw [if_neg h0]
    refine to_string_aux_length ?_ (by norm_num)
    calc n < U64 := hn
      _ ≤ 10 ^ 20 := by norm_num

theorem message_length {n : Nat} (hn : n < U64) : (message n).length + 1 ≤ 30 := by
  have h := to_string_length hn
  simp only [message, List.length_append, List.length_cons, List.length_nil]
  omega

/-- Claim C9: for every uint64 counter value, the bytes of the producer's message
together with the terminating zero byte number at most 30, hence at most the
63-byte slot payload capacity; the unchecked copy stays in bounds. -/
theorem producer_message_fits (n : Nat) (hn : n < U64) :
    (message n).length + 1 ≤ 30 ∧ (message n).length + 1 ≤ 63 :=
  ⟨message_length hn, Nat.le_trans (message_length hn) (by norm_num)⟩

theorem producer_message_fits_witness :
    ull_max < U64 ∧
    ((message ull_max).length + 1 ≤ 30 ∧ (message ull_max).length + 1 ≤ 63) :=
  ⟨by decide, producer_message_fits ull_max (by decide)⟩

theorem write_buffer_cases (rb : RingBuffer) (bi : Nat) (src : List Nat)
    (sz : Nat) (k : Nat) :
    ((rb.Write bi src sz).buffer k).size_ = sz ∨
    (rb.Write bi src sz).buffer k = rb.buffer k := by
  unfold RingBuffer.Write
  by_cases hk : k = RingBuffer.index bi
  · subst hk
    left
    show (Function.update rb.buffer (RingBuffer.index bi) _ (RingBuffer.index bi)).size_ = sz
    rw [Function.update_same]
  · right
    exact Function.update_noteq hk _ _

theorem consumer_step_buffer (s : State) (i : Fin numConsumers) :
    (consumer_step s i).buffer = s.buffer := by
  unfold consumer_step
  split <;> rfl

theorem rebase_buffer (s : State) : (rebase s).buffer = s.buffer := by
  unfold rebase
  set a := sub64 s.sequence (c_epoch * size_) with ha
  set f := fun i => sub64 (s.consumer_sequences i) (c_epoch * size_) with hf
  rfl

theorem producer_step_buffer_bound {s : State} (hseq : s.sequence < U64) (k : Nat) :
    (producer_step s).buffer.buffer k = s.buffer.buffer k ∨
    ((producer_step s).buffer.buffer k).size_ ≤ 63 := by
  cases hc : producer_cont s with
  | false =>
    rw [producer_step_not_admitted hc]
    exact Or.inl rfl
  | true =>
    have hm : (if s.sequence = ull_max then rebase s else s).sequence < U64 := by
      split
      · exact sub64_lt
      · exact hseq
    have hbuf : (producer_step s).buffer =
        (if s.sequence = ull_max then rebase s else s).buffer.Write
          ((if s.sequence = ull_max then rebase s else s).sequence % 2 ^ 32)
          (message (if s.sequence = ull_max then rebase s else s).sequence ++ [0])
          (((message (if s.sequence = ull_max then rebase s else s).sequence).length + 1) % 256) := by
      simp only [producer_step, hc, if_true]
    have hrb : (if s.sequence = ull_max then rebase s else s).buffer = s.buffer := by
      split
      · exact rebase_buffer s
      · rfl
    rw [hbuf, hrb]
    rcases write_buffer_cases s.buffer _ _ _ k with hsz | heq
    · right
      rw [hsz]
      have hlen := message_length hm
      omega
    · left
      rw [heq]

/-- Claim C6 (amended): the code performs no payload-size check anywhere; instead,
in every reachable state every slot of the ring buffer either still holds its
arbitrary initial contents or was written by the producer with a stored size
of at most 63, because every message the producer constructs fits. -/
theorem no_oversized_payload_written (b0 : RingBuffer) (s : State)
    (h : Reachable b0 s) :
    ∀ k, s.buffer.buffer k = b0.buffer k ∨ (s.buffer.buffer k).size_ ≤ 63 := by
  induction h with
  | refl => exact fun k => Or.inl rfl
  | tail hr hstep ih =>
    intro k
    cases hstep with
    | producer =>
      rcases producer_step_buffer_bound (reachable_inv hr).1 k with heq | hbnd
      · rw [heq]
        exact ih k
      · exact Or.inr hbnd
    | consumer i =>
      rw [consumer_step_buffer]
      exact ih k

theorem no_oversized_payload_written_witness :
    (init zeroBuffer).buffer.buffer 0 = zeroBuffer.buffer 0 ∨
    ((init zeroBuffer).buffer.buffer 0).size_ ≤ 63 :=
  no_oversized_payload_written zeroBuffer (init zeroBuffer) Reachable.refl 0

/-- Claim C6 (counterexample): no rejection exists on the write path: a Write of a
64-byte payload, exceeding the 63-byte slot capacity, is carried out and its
oversized length is stored in the slot, contradicting the claim that an
oversized payload is rejected before any write. -/
theorem oversized_write_not_rejected :
    ((zeroBuffer.Write 0 (List.replicate 64 7) 64).Read 0).1 = 64 ∧ 63 < 64 := by
  constructor
  · rfl
  · decide

theorem index_eq_mod (bi : Nat) : RingBuffer.index bi = bi % size_ := by
  unfold RingBuffer.index
  rw [(by decide : (size_ - 1 : Nat) = 2 ^ 8 - 1), (by decide : (size_ : Nat) = 2 ^ 8)]
  exact Nat.and_pow_two_sub_one_eq_mod bi 8

theorem range_map_getD {pl : List Nat} {len : Nat} (h : len ≤ pl.length) :
    (List.range len).map (fun j => pl.getD j 0) = pl.take len := by
  apply List.ext_getElem
  · simp [h]
  · intro i h1 h2
    simp only [List.getElem_map, List.getElem_range, List.getElem_take]
    rw [List.getD_eq_getElem]

theorem read_write_same {rb : RingBuffer} {bi bi' len : Nat} {pl : List Nat}
    (hcong : bi' % size_ = bi % size_) (hlen : len ≤ 63) (hp : len ≤ pl.length) :
    (rb.Write bi pl len).Read bi' = (len, pl.take len) := by
  have hidx : RingBuffer.index bi' = RingBuffer.index bi := by
    rw [index_eq_mod, index_eq_mod, hcong]
  unfold RingBuffer.Read RingBuffer.Write
  rw [hidx]
  simp only [Function.update_same]
  refine congrArg₂ Prod.mk rfl ?_
  have hmap : ∀ j ∈ List.range len,
      (if h : j < 63 then
        (if (j : Nat) < len then pl.getD j 0
         else (rb.buffer (RingBuffer.index bi)).data ⟨j, h⟩) else 0) = pl.getD j 0 := by
    intro j hj
    have hj' : j < len := List.mem_range.mp hj
    rw [dif_pos (Nat.lt_of_lt_of_le hj' hlen), if_pos hj']
  rw [List.map_congr_left hmap]
  exact range_map_getD hp

theorem writeList_read {ws : List (Nat × List Nat × Nat)} {rb : RingBuffer} {t : Nat}
    (h : ∀ w ∈ ws, RingBuffer.index w.1 ≠ RingBuffer.index t) :
    (writeList rb ws).Read t = rb.Read t := by
  induction ws generalizing rb with
  | nil => rfl
  | cons w ws ih =>
    show (writeList (rb.Write w.1 w.2.1 w.2.2) ws).Read t = rb.Read t
    rw [ih (fun w' hw' => h w' (List.mem_cons_of_mem _ hw'))]
    have hne : RingBuffer.index t ≠ RingBuffer.index w.1 :=
      Ne.symm (h w (List.mem_cons_self _ _))
    unfold RingBuffer.Read RingBuffer.Write
    simp only [Function.update_noteq hne]

/-- Claim C8: round trip of the ring buffer. Writing a payload of length at most
the 63-byte slot capacity at block index bi stores it at slot bi mod size_,
overwriting the previous contents with no bounds or staleness check; after
any further writes to block indices not congruent to bi modulo size_, a Read
at any index congruent to bi modulo size_ returns the stored length and the
first len bytes of the payload. -/
theorem ring_buffer_round_trip (rb : RingBuffer) (bi bi' len : Nat) (pl : List Nat)
    (ws : List (Nat × List Nat × Nat))
    (hlen : len ≤ 63) (hp : len ≤ pl.length)
    (hcong : bi' % size_ = bi % size_)
    (hws : ∀ w ∈ ws, w.1 % size_ ≠ bi % size_) :
    (writeList (rb.Write bi pl len) ws).Read bi' = (len, pl.take len) := by
  rw [writeList_read, read_write_same hcong hlen hp]
  intro w hw
  rw [index_eq_mod, index_eq_mod, hcong]
  exact hws w hw

theorem ring_buffer_round_trip_witness :
    ((2 : Nat) ≤ 63 ∧ (2 : Nat) ≤ ([10, 20, 30] : List Nat).length ∧
      259 % size_ = 3 % size_ ∧
      ∀ w ∈ ([(4, [9], 1)] : List (Nat × List Nat × Nat)), w.1 % size_ ≠ 3 % size_) ∧
    (writeList (zeroBuffer.Write 3 [10, 20, 30] 2) [(4, [9], 1)]).Read 259 =
      (2, List.take 2 [10, 20, 30]) :=
  ⟨⟨by decide, by decide, by decide, by decide⟩,
    ring_buffer_round_trip zeroBuffer 3 259 2 [10, 20, 30] [(4, [9], 1)]
      (by decide) (by decide) (by decide) (by decide)⟩

/-- Claim C10: truncating a block index to uint32 before the mask never changes the
selected slot: for every value, the masked truncation equals the value modulo
size_ = 256, which is also the slot the untruncated index selects, because
size_ divides 2 to the 32. -/
theorem uint32_truncation_preserves_slot (s : Nat) :
    RingBuffer.index (s % 2 ^ 32) = s % size_ ∧
    RingBuffer.index (s % 2 ^ 32) = RingBuffer.index s := by
  have h1 := index_eq_mod (s % 2 ^ 32)
  have h2 := index_eq_mod s
  have h3 : s % 2 ^ 32 % size_ = s % size_ :=
    Nat.mod_mod_of_dvd s ⟨16777216, by decide⟩
  exact ⟨h1.trans h3, (h1.trans h3).trans h2.symm⟩
end LMAXDisruptor
